import Mathlib

/-!
Shallow embedding of the dubbing pipeline's timing-critical core
(`src/dubber`): timeline assembly (`audio/mix.py`, `Mixer.create_mixed_audio`),
speaker alignment (`transcription.py`, `TranscriptionManager.align_speakers`
and `.run`), duration matching (`tts/xtts_engine.py`,
`XTTSEngine.adjust_duration`) and the orchestrator's per-segment synthesis
loop (`pipeline.py`, `Pipeline.run`).

Time values are embedded as rationals (`ℚ`): the Python source computes with
floats, but every algorithmic decision in these routines is ordinary ordered
field arithmetic (comparisons, sums, clamps), which `ℚ` models exactly.
-/

namespace Dubber

/-- Embeds `dubber.models.Segment`.  `stop` embeds the Python field `end`
(`end` is a Lean keyword).  `audio` embeds `audio_path`: `none` when the
handle is absent, `some d` when a synthesized clip of duration `d` seconds
exists at the path.  `translated` embeds `translated_text` truthiness,
`speaker` embeds `speaker_id`. -/
structure Segment where
  sid : Nat
  start : ℚ
  stop : ℚ
  translated : Bool := true
  speaker : Option String := none
  audio : Option ℚ := none
  deriving Repr, DecidableEq

/-! ## Duration matcher: `XTTSEngine.adjust_duration` -/

/-- The tempo factor `adjust_duration` would pass to `atempo`, lines 123-139
of `xtts_engine.py`: probe failure is treated as duration `0.0`; durations
`≤ 0.1` s return without touching the file; otherwise
`speed = max(0.5, min(2.0, current/target))`, and `0.9 < speed < 1.1`
returns without touching the file.  `some s` means the ffmpeg tempo change
is requested with factor `s`; `none` means the clip is left untouched. -/
def requestedSpeed (probe : Option ℚ) (target : ℚ) : Option ℚ :=
  if probe.getD 0 ≤ 1/10 then none
  else if 9/10 < max (1/2) (min 2 (probe.getD 0 / target)) ∧
          max (1/2) (min 2 (probe.getD 0 / target)) < 11/10 then none
  else some (max (1/2) (min 2 (probe.getD 0 / target)))

/-- File-system state seen by `adjust_duration`: the clip at `audio_path`
and the `.temp.wav` sibling. -/
structure ClipState where
  main : List Int
  temp : Option (List Int) := none
  deriving Repr, DecidableEq

/-- Embeds `adjust_duration` lines 141-153 acting on the clip file: when a
tempo change is requested, ffmpeg writes the stretched audio to the
temporary path (`audio_path.with_suffix(".temp.wav")`); only on ffmpeg
success (`check=True` raised nothing) does `shutil.move` swap the temporary
file over the original.  `ffmpeg s c` returns `.ok out` for a completed
stretch of content `c` by factor `s`, `.error part` when the process fails
after writing partial bytes `part`.  The returned `Bool` is `true` when the
call finished without raising. -/
def adjustDuration (ffmpeg : ℚ → List Int → Except (List Int) (List Int))
    (st : ClipState) (probe : Option ℚ) (target : ℚ) : ClipState × Bool :=
  match requestedSpeed probe target with
  | none => (st, true)
  | some s =>
    match ffmpeg s st.main with
    | Except.error part => ({ st with temp := some part }, false)
    | Except.ok out => ({ main := out, temp := none }, true)

/-! ## Timeline assembly: `Mixer.create_mixed_audio`, lines 69-107 -/

/-- One entry of the ffmpeg concat list `concat_list.txt`: a generated
silence file of duration `d`, or segment `sid`'s synthesized clip of
duration `d`. -/
inductive Block where
  | silence (d : ℚ)
  | clip (sid : Nat) (d : ℚ)
  deriving Repr, DecidableEq

def Block.dur : Block → ℚ
  | .silence d => d
  | .clip _ d => d

/-- The loop body of `create_mixed_audio` (lines 83-101): segments whose
`audio_path` is absent are skipped; otherwise `gap = seg.start - current_time`
inserts a silence block when `gap > 0.01` (10 ms tolerance), the clip is
appended, and `current_time = seg.end`. -/
def mixFold : List Segment → List Block → ℚ → List Block × ℚ
  | [], blocks, cur => (blocks, cur)
  | seg :: rest, blocks, cur =>
    match seg.audio with
    | none => mixFold rest blocks cur
    | some d =>
      mixFold rest
        ((if 1/100 < seg.start - cur then blocks ++ [Block.silence (seg.start - cur)]
          else blocks) ++ [Block.clip seg.sid d])
        seg.stop

/-- The full concat list built by `create_mixed_audio` lines 82-107: run the
segment loop from `current_time = 0.0`, then append trailing silence of
`remaining = total_duration - current_time` when it exceeds the 10 ms
tolerance. -/
def mixBlocks (segs : List Segment) (total : ℚ) : List Block :=
  if 1/100 < total - (mixFold segs [] 0).2 then
    (mixFold segs [] 0).1 ++ [Block.silence (total - (mixFold segs [] 0).2)]
  else (mixFold segs [] 0).1

/-- Duration of the concatenated voice track: the concat demuxer joins the
listed files back to back, so the track length is the sum of entry
durations. -/
def trackDur (bs : List Block) : ℚ := (bs.map Block.dur).sum

/-- Ids of the clip entries of the concat list, in list order. -/
def clipIds (bs : List Block) : List Nat :=
  bs.filterMap fun b => match b with
    | .silence _ => none
    | .clip sid _ => some sid

/-- Start offset of segment `sid`'s clip inside the concatenated track: the
summed duration of every entry before the first `clip sid` entry. -/
def clipOffset (sid : Nat) : List Block → Option ℚ
  | [] => none
  | b :: bs =>
    match b with
    | .clip s _ => if s = sid then some 0 else (clipOffset sid bs).map (b.dur + ·)
    | .silence _ => (clipOffset sid bs).map (b.dur + ·)

/-- Segment windows are strictly ascending and non-overlapping starting no
earlier than `c`: each `start < stop` and each `stop ≤` the next `start`. -/
def Ascending (c : ℚ) : List Segment → Prop
  | [] => True
  | s :: rest => c ≤ s.start ∧ s.start < s.stop ∧ Ascending s.stop rest

def decAscending : (c : ℚ) → (l : List Segment) → Decidable (Ascending c l)
  | _, [] => isTrue trivial
  | c, s :: rest =>
    haveI : Decidable (Ascending s.stop rest) := decAscending s.stop rest
    decidable_of_iff (c ≤ s.start ∧ s.start < s.stop ∧ Ascending s.stop rest) Iff.rfl

instance (c : ℚ) (l : List Segment) : Decidable (Ascending c l) := decAscending c l

/-! ## Speaker alignment: `TranscriptionManager.align_speakers`, lines 144-176 -/

/-- Embeds one pyannote diarization track: an interval `[tstart, tstop)`
carrying a speaker `label`. -/
structure Track where
  tstart : ℚ
  tstop : ℚ
  label : String
  deriving Repr, DecidableEq

/-- Temporal overlap of diarization track `t` with `[s.start, s.stop)`,
as computed at lines 165-167:
`max(0, min(seg.end, t.end) - max(seg.start, t.start))`. -/
def overlap (s : Segment) (t : Track) : ℚ :=
  max 0 (min s.stop t.tstop - max s.start t.tstart)

/-- Embeds `diarization.crop(...)` at line 152: the sub-annotation of tracks
that intersect `[s.start, s.stop)` in a set of positive measure (pyannote
drops empty intersections, so abutting tracks do not appear). -/
def cropTracks (s : Segment) (d : List Track) : List Track :=
  d.filter fun t => decide (0 < min s.stop t.tstop - max s.start t.tstart)

/-- First-occurrence order of the labels of a track list: the key order of
the Python dict `speaker_durations` built by inserting each track's label in
iteration order (lines 162-168) — a Python dict keeps keys in first-insertion
order. -/
def firstOccs (ls : List String) : List String :=
  ls.foldl (fun acc x => if x ∈ acc then acc else acc ++ [x]) []

/-- Accumulated overlap of label `lab` over the cropped tracks `ts`: the
value `speaker_durations[lab]` after the loop at lines 162-168. -/
def labelDur (s : Segment) (ts : List Track) (lab : String) : ℚ :=
  ((ts.filter fun t => decide (t.label = lab)).map (overlap s)).sum

/-- Embeds `max(speaker_durations, key=speaker_durations.get)` (line 171):
CPython's `max` scans the keys in dict order keeping the current best, and
replaces it only on a strictly greater value, so the first key attaining the
maximum wins. -/
def pickMax (f : String → ℚ) : List String → Option String
  | [] => none
  | x :: xs => some (xs.foldl (fun best y => if f best < f y then y else best) x)

/-- The default/unknown speaker identity (lines 156, 174, 200). -/
def spk00 : String := "SPEAKER_00"

/-- Embeds the per-segment body of `align_speakers` (lines 149-174): crop the
diarization to the segment, default to `SPEAKER_00` when nothing overlaps,
otherwise take the label of strictly greatest accumulated overlap, first
encountered winning ties. -/
def resolveSpeaker (s : Segment) (d : List Track) : String :=
  match pickMax (labelDur s (cropTracks s d))
      (firstOccs ((cropTracks s d).map Track.label)) with
  | none => spk00
  | some lab => lab

/-- Embeds `align_speakers` over a segment list: each segment's `speaker_id`
is assigned in place. -/
def alignSpeakers (segs : List Segment) (d : List Track) : List Segment :=
  segs.map fun s => { s with speaker := some (resolveSpeaker s d) }

/-- Embeds `TranscriptionManager.run` lines 184-202 after transcription has
produced `segs`: an empty transcription returns `[]` at once; otherwise
diarization is attempted, and on any exception (engine error, missing
credentials) the `except` branch assigns `SPEAKER_00` to every segment and
the full list is still returned.  `diar` is the outcome of
`self.diarize(...)`: `.ok` with the interval list, or `.error` with the
exception message. -/
def transcriptionRun (segs : List Segment) (diar : Except String (List Track)) :
    List Segment :=
  if segs.isEmpty then []
  else
    match diar with
    | Except.ok d => alignSpeakers segs d
    | Except.error _ => segs.map fun s => { s with speaker := some spk00 }

/-! ## Orchestrator synthesis loop: `Pipeline.run`, lines 136-152 -/

/-- Embeds the per-segment synthesis loop: segments without translated text
are skipped untouched; otherwise `synthesize` plus `adjust_duration` run
under `try`, and only on success (`synth` returns the produced clip's
duration) is `seg.audio_path` assigned — the `except` branch logs and
continues to the next segment, leaving the segment untouched (its
`audio_path` stays whatever it was, `None` for freshly transcribed
segments).  The loop visits every segment. -/
def synthStep (synth : Segment → Option ℚ) (s : Segment) : Segment :=
  if s.translated then
    match synth s with
    | some d => { s with audio := some d }
    | none => s
  else s

def synthesizeLoop (synth : Segment → Option ℚ) (segs : List Segment) :
    List Segment :=
  segs.map (synthStep synth)

/-! ## Concrete inputs used by counterexamples and witnesses -/

/-- Two strictly ascending, non-overlapping segments whose clips fill their
windows exactly, separated from the origin and from each other by gaps of
`1/128` s (below the 10 ms tolerance, so both gaps are dropped). -/
def c1segs : List Segment :=
  [ { sid := 0, start := 1/128, stop := 33/128, audio := some (32/128) },
    { sid := 1, start := 34/128, stop := 66/128, audio := some (32/128) } ]

/-- Unsorted input: segment 0 starts at 1.0 s, segment 1 at 0.0 s. -/
def c2segs : List Segment :=
  [ { sid := 0, start := 1, stop := 2, audio := some 1 },
    { sid := 1, start := 0, stop := 1/2, audio := some (1/2) } ]

/-- Transcribed segments (no audio yet) for the synthesis-failure scenario:
segment 1 trails segment 0 by a 5 ms gap. -/
def c4segs : List Segment :=
  [ { sid := 0, start := 1/10, stop := 1/5 },
    { sid := 1, start := 41/200, stop := 3/10 } ]

/-- Synthesis oracle in which every segment succeeds with a clip that fills
its window exactly. -/
def c4synthOk (s : Segment) : Option ℚ := some (s.stop - s.start)

/-- Synthesis oracle in which segment 0 fails and every other segment
succeeds as in `c4synthOk`. -/
def c4synthFail (s : Segment) : Option ℚ :=
  if s.sid = 0 then none else some (s.stop - s.start)

/-- Four ascending segments whose clips fill their windows: two sub-tolerance
gaps of `1/128` s accumulate, and segment 4 starts `1/128` s before the
cursor (overlap). -/
def c10segs : List Segment :=
  [ { sid := 1, start := 16/128, stop := 32/128, audio := some (16/128) },
    { sid := 2, start := 33/128, stop := 49/128, audio := some (16/128) },
    { sid := 3, start := 50/128, stop := 66/128, audio := some (16/128) },
    { sid := 4, start := 65/128, stop := 81/128, audio := some (16/128) } ]

/-- The segment of the spec's alignment scenario: `{0, 2}`. -/
def segScenario : Segment := { sid := 0, start := 0, stop := 2 }

/-- The diarization intervals of the spec's alignment scenario:
`[{0,2,"A"}, {1,3,"B"}]`. -/
def tracksScenario : List Track := [ ⟨0, 2, "A"⟩, ⟨1, 3, "B"⟩ ]

/-- A diarization interval that abuts `segScenario` without overlapping it. -/
def trackAfter : List Track := [ ⟨2, 3, "A"⟩ ]

/-- A stand-in tempo engine whose process always fails after writing no
bytes to the temporary file. -/
def ffmpegFail (_ : ℚ) (_ : List Int) : Except (List Int) (List Int) :=
  Except.error []

/-- A stand-in tempo engine that always succeeds and returns the input
unchanged. -/
def ffmpegOk (_ : ℚ) (c : List Int) : Except (List Int) (List Int) :=
  Except.ok c

/-- A concrete clip file. -/
def clipW : ClipState := { main := [1, 2, 3] }

/-- A one-segment run matching the spec's assembly scenario: speech `[0, 1)`
against a 3 s original. -/
def c1w : List Segment := [ { sid := 0, start := 0, stop := 1, audio := some 1 } ]

/-- The overlapping segment of the C10 witness. -/
def c10w : Segment := { sid := 4, start := 65/128, stop := 81/128, audio := some (16/128) }

/-- Previously appended content for the C10 witness. -/
def c10wblocks : List Block := [Block.clip 1 (1/2)]

/-! # Theorems -/

theorem trackDur_nil : trackDur [] = 0 := rfl

theorem trackDur_cons (b : Block) (bs : List Block) :
    trackDur (b :: bs) = b.dur + trackDur bs := by
  simp [trackDur]

theorem trackDur_append (l₁ l₂ : List Block) :
    trackDur (l₁ ++ l₂) = trackDur l₁ + trackDur l₂ := by
  unfold trackDur
  rw [List.map_append, List.sum_append]

theorem trackDur_silence (g : ℚ) : trackDur [Block.silence g] = g := by
  simp [trackDur, Block.dur]

theorem trackDur_clip (n : Nat) (d : ℚ) : trackDur [Block.clip n d] = d := by
  simp [trackDur, Block.dur]

theorem ascending_mono {a b : ℚ} {l : List Segment} (h : Ascending a l)
    (hba : b ≤ a) : Ascending b l := by
  cases l with
  | nil => trivial
  | cons s rest => exact ⟨le_trans hba h.1, h.2.1, h.2.2⟩

/-- Along the segment loop the cursor never passes `total` when every
segment's `end` is below `total`. -/
theorem mixFold_cur_le (segs : List Segment) :
    ∀ (blocks : List Block) (cur total : ℚ), cur ≤ total →
      (∀ s ∈ segs, s.stop ≤ total) → (mixFold segs blocks cur).2 ≤ total := by
  induction segs with
  | nil => intro blocks cur total h _; exact h
  | cons s rest ih =>
    intro blocks cur total h hstop
    cases haud : s.audio with
    | none =>
      simp only [mixFold, haud]
      exact ih _ _ _ h (fun t ht => hstop t (List.mem_cons_of_mem _ ht))
    | some d =>
      simp only [mixFold, haud]
      exact ih _ _ _ (hstop s (List.mem_cons_self _ _))
        (fun t ht => hstop t (List.mem_cons_of_mem _ ht))

/-- The central accounting of the segment loop: on ascending, non-overlapping
windows whose present clips fill their windows exactly, the appended track
duration is the cursor's advance minus the skipped sub-tolerance gaps — at
most `10 ms` lost per segment, and never more than the advance. -/
theorem mixFold_dur (segs : List Segment) :
    ∀ (blocks : List Block) (cur : ℚ), Ascending cur segs →
      (∀ s ∈ segs, s.audio = none ∨ s.audio = some (s.stop - s.start)) →
      cur ≤ (mixFold segs blocks cur).2 ∧
      trackDur (mixFold segs blocks cur).1 - trackDur blocks
        ≤ (mixFold segs blocks cur).2 - cur ∧
      (mixFold segs blocks cur).2 - cur - (segs.length : ℚ) * (1/100)
        ≤ trackDur (mixFold segs blocks cur).1 - trackDur blocks := by
  induction segs with
  | nil =>
    intro blocks cur _ _
    simp [mixFold]
  | cons s rest ih =>
    intro blocks cur hasc hcl
    obtain ⟨h1, h2, h3⟩ := hasc
    have hclr : ∀ t ∈ rest, t.audio = none ∨ t.audio = some (t.stop - t.start) :=
      fun t ht => hcl t (List.mem_cons_of_mem _ ht)
    have hlen : ((s :: rest).length : ℚ) = (rest.length : ℚ) + 1 := by
      push_cast [List.length_cons]
      ring
    rcases hcl s (List.mem_cons_self _ _) with hnone | hsome
    · simp only [mixFold, hnone]
      obtain ⟨ih1, ih2, ih3⟩ := ih blocks cur (ascending_mono h3 (by linarith)) hclr
      refine ⟨ih1, ih2, ?_⟩
      rw [hlen]
      linarith
    · simp only [mixFold, hsome]
      by_cases hgap : 1/100 < s.start - cur
      · rw [if_pos hgap]
        obtain ⟨ih1, ih2, ih3⟩ :=
          ih ((blocks ++ [Block.silence (s.start - cur)]) ++ [Block.clip s.sid (s.stop - s.start)])
            s.stop h3 hclr
        have hdur : trackDur ((blocks ++ [Block.silence (s.start - cur)]) ++
            [Block.clip s.sid (s.stop - s.start)]) =
            trackDur blocks + (s.start - cur) + (s.stop - s.start) := by
          rw [trackDur_append, trackDur_append, trackDur_silence, trackDur_clip]
        rw [hdur] at ih2 ih3
        refine ⟨by linarith, by linarith, ?_⟩
        rw [hlen]
        linarith
      · rw [if_neg hgap]
        push_neg at hgap
        obtain ⟨ih1, ih2, ih3⟩ :=
          ih (blocks ++ [Block.clip s.sid (s.stop - s.start)]) s.stop h3 hclr
        have hdur : trackDur (blocks ++ [Block.clip s.sid (s.stop - s.start)]) =
            trackDur blocks + (s.stop - s.start) := by
          rw [trackDur_append, trackDur_clip]
        rw [hdur] at ih2 ih3
        refine ⟨by linarith, by linarith, ?_⟩
        rw [hlen]
        linarith

theorem clipIds_append (l₁ l₂ : List Block) :
    clipIds (l₁ ++ l₂) = clipIds l₁ ++ clipIds l₂ := by
  unfold clipIds
  rw [List.filterMap_append]

/-- The clip entries the segment loop emits are exactly the ids of the
segments that have audio, in list order; silence contributes none. -/
theorem clipIds_mixFold (segs : List Segment) :
    ∀ (blocks : List Block) (cur : ℚ),
      clipIds (mixFold segs blocks cur).1 =
        clipIds blocks ++ (segs.filter fun s => s.audio.isSome).map Segment.sid := by
  induction segs with
  | nil => intro blocks cur; simp [mixFold]
  | cons s rest ih =>
    intro blocks cur
    cases haud : s.audio with
    | none =>
      simp only [mixFold, haud]
      rw [ih]
      simp [List.filter_cons, haud]
    | some d =>
      simp only [mixFold, haud]
      rw [ih]
      by_cases hg : 1/100 < s.start - cur
      · rw [if_pos hg, clipIds_append, clipIds_append]
        simp [clipIds, List.filter_cons, haud]
      · rw [if_neg hg, clipIds_append]
        simp [clipIds, List.filter_cons, haud]

/-- The clips of the assembled concat list are exactly the segments holding
audio, in list order. -/
theorem clipIds_mixBlocks (segs : List Segment) (total : ℚ) :
    clipIds (mixBlocks segs total) =
      (segs.filter fun s => s.audio.isSome).map Segment.sid := by
  unfold mixBlocks
  by_cases hr : 1/100 < total - (mixFold segs [] 0).2
  · rw [if_pos hr, clipIds_append, clipIds_mixFold]
    simp [clipIds]
  · rw [if_neg hr, clipIds_mixFold]
    simp [clipIds]

/-- Appending a fresh clip to the concat list places it exactly at the end
of the already-appended content. -/
theorem clipIds_cons_silence (g : ℚ) (bs : List Block) :
    clipIds (Block.silence g :: bs) = clipIds bs := by
  simp [clipIds]

theorem clipIds_cons_clip (m : Nat) (d : ℚ) (bs : List Block) :
    clipIds (Block.clip m d :: bs) = m :: clipIds bs := by
  simp [clipIds]

theorem clipOffset_append_clip (blocks : List Block) (n : Nat) (d : ℚ)
    (h : n ∉ clipIds blocks) :
    clipOffset n (blocks ++ [Block.clip n d]) = some (trackDur blocks) := by
  induction blocks with
  | nil => simp [clipOffset, trackDur]
  | cons b bs ih =>
    rw [trackDur_cons]
    cases b with
    | silence g =>
      rw [clipIds_cons_silence] at h
      simp [clipOffset, ih h, Block.dur]
    | clip m d' =>
      rw [clipIds_cons_clip] at h
      have hm : ¬ m = n := fun hmn => h (hmn ▸ List.mem_cons_self _ _)
      have hbs : n ∉ clipIds bs := fun hn => h (List.mem_cons_of_mem _ hn)
      simp [clipOffset, hm, ih hbs, Block.dur]

/-- C1 counterexample: `c1segs` has strictly ascending, non-overlapping
windows, every clip fills its window exactly and fits inside the declared
1 s duration, yet the assembled track lasts `63/64` s — `1/64` s short of
the declared duration, beyond the 10 ms tolerance: the two dropped `1/128` s
gaps accumulate. -/
theorem assembled_duration_gap_loss :
    Ascending 0 c1segs ∧
    c1segs.map Segment.audio = c1segs.map (fun s => some (s.stop - s.start)) ∧
    c1segs.map Segment.stop = [33/128, 66/128] ∧
    trackDur (mixBlocks c1segs 1) = 63/64 ∧
    ¬ |trackDur (mixBlocks c1segs 1) - 1| ≤ 1/100 := by
  have heval : trackDur (mixBlocks c1segs 1) = 63/64 := by
    norm_num [c1segs, mixBlocks, mixFold, trackDur, Block.dur]
  refine ⟨?_, ?_, ?_, heval, ?_⟩
  · norm_num [Ascending, c1segs]
  · norm_num [c1segs]
  · norm_num [c1segs]
  · rw [heval, not_le, show (63 : ℚ)/64 - 1 = -(1/64) by norm_num, abs_neg,
      abs_of_pos (by norm_num : (0:ℚ) < 1/64)]
    norm_num

/-- C1 (amended): for every segment list with strictly ascending,
non-overlapping `[start, end)` windows fitting inside the declared original
duration, whose clips all fill their windows exactly, the assembled voice
track never exceeds the declared duration and falls short of it by at most
`10 ms` per segment plus `10 ms` for the trailing remainder — `(n+1)·10 ms`
in all — rather than the flat 10 ms of the original claim, because each
sub-tolerance gap (and the sub-tolerance trailing remainder) is dropped and
the losses accumulate. -/
theorem assembled_duration_bounds (segs : List Segment) (total : ℚ)
    (hasc : Ascending 0 segs)
    (hclips : ∀ s ∈ segs, s.audio = some (s.stop - s.start))
    (hfit : ∀ s ∈ segs, s.stop ≤ total) (htot : 0 ≤ total) :
    total - ((segs.length : ℚ) + 1) * (1/100) ≤ trackDur (mixBlocks segs total) ∧
    trackDur (mixBlocks segs total) ≤ total := by
  obtain ⟨h1, h2, h3⟩ := mixFold_dur segs [] 0 hasc
    (fun s hs => Or.inr (hclips s hs))
  have hcur := mixFold_cur_le segs [] 0 total htot hfit
  rw [trackDur_nil] at h2 h3
  unfold mixBlocks
  by_cases hrem : 1/100 < total - (mixFold segs [] 0).2
  · rw [if_pos hrem, trackDur_append, trackDur_silence]
    constructor <;> linarith
  · push_neg at hrem
    rw [if_neg (not_lt.2 hrem)]
    constructor <;> linarith

/-- C1 witness: the spec's own scenario — one segment `[0, 1)` with a 1 s
clip against a 3 s original — stays within the bounds. -/
theorem assembled_duration_bounds_witness :
    (3 : ℚ) - ((c1w.length : ℚ) + 1) * (1/100) ≤ trackDur (mixBlocks c1w 3) ∧
    trackDur (mixBlocks c1w 3) ≤ 3 :=
  assembled_duration_bounds c1w 3 (by norm_num [Ascending, c1w])
    (by
      intro s hs
      simp only [c1w, List.mem_singleton] at hs
      subst hs
      norm_num)
    (by
      intro s hs
      simp only [c1w, List.mem_singleton] at hs
      subst hs
      norm_num)
    (by norm_num)

/-- C2: `create_mixed_audio` does not sort — evaluated at an input whose
list order disagrees with ascending-start order, the concat list carries
segment 0 (start 1.0 s) before segment 1 (start 0.0 s): segment 1's clip is
appended after segment 0's, at offset 2 s instead of 0 s.  This contradicts
the source's own comment, "Sort segments by start." (mix.py line 58), and
the spec's precondition that segments be sorted by `start` before
assembly. -/
theorem mix_processes_in_list_order :
    c2segs.map Segment.start = [1, 0] ∧
    clipIds (mixBlocks c2segs 3) = [0, 1] ∧
    clipOffset 0 (mixBlocks c2segs 3) = some 1 ∧
    clipOffset 1 (mixBlocks c2segs 3) = some 2 := by
  refine ⟨by norm_num [c2segs], ?_, ?_, ?_⟩
  · norm_num [c2segs, mixBlocks, mixFold, clipIds, List.filterMap_cons]
  · norm_num [c2segs, mixBlocks, mixFold, clipOffset, Block.dur]
  · norm_num [c2segs, mixBlocks, mixFold, clipOffset, Block.dur]

/-- C10 counterexample: in `c10segs` the cursor sits at `66/128` when
segment 4 (start `65/128`) is processed — a negative gap — yet the clip
lands at offset `1/2 = 64/128`, *earlier* than its declared start, because
the two earlier dropped sub-tolerance gaps shifted the whole track: the
claim's "placed later than its declared start" fails. -/
theorem overlap_placed_before_start :
    (mixFold (c10segs.take 3) [] 0).2 = 66/128 ∧
    (c10segs.map Segment.start).getLast? = some (65/128) ∧
    (65/128 : ℚ) < 66/128 ∧
    clipOffset 4 (mixBlocks c10segs 1) = some (1/2) ∧
    (1/2 : ℚ) < 65/128 := by
  refine ⟨?_, ?_, by norm_num, ?_, by norm_num⟩
  · norm_num [c10segs, mixFold]
  · norm_num [c10segs]
  · norm_num [c10segs, mixBlocks, mixFold, clipOffset, Block.dur]

/-- C10 (amended): a segment whose start lies below the cursor (overlapping
or out-of-order input) is never rejected: no silence is inserted before it
(the negative gap is below the 10 ms tolerance), its clip is appended
immediately after the previously appended block — at the current end of the
track, which may fall before or after its declared start — the cursor is
set to its `end` even when that moves the cursor backwards, and the loop
continues with the remaining segments. -/
theorem overlap_appended_without_silence (s : Segment) (rest : List Segment)
    (blocks : List Block) (cur d : ℚ)
    (haudio : s.audio = some d) (hneg : s.start < cur)
    (hnew : s.sid ∉ clipIds blocks) :
    mixFold (s :: rest) blocks cur =
      mixFold rest (blocks ++ [Block.clip s.sid d]) s.stop ∧
    clipOffset s.sid (blocks ++ [Block.clip s.sid d]) = some (trackDur blocks) := by
  constructor
  · simp only [mixFold, haudio]
    rw [if_neg (by linarith)]
  · exact clipOffset_append_clip blocks s.sid d hnew

/-- C10 witness: the overlapping segment `c10w` (start `65/128`, cursor
`66/128`) is appended directly after the pending clip, at the track's
current end `1/2`. -/
theorem overlap_appended_without_silence_witness :
    mixFold [c10w] c10wblocks (66/128) =
      mixFold [] (c10wblocks ++ [Block.clip c10w.sid (16/128)]) c10w.stop ∧
    clipOffset c10w.sid (c10wblocks ++ [Block.clip c10w.sid (16/128)]) =
      some (trackDur c10wblocks) :=
  overlap_appended_without_silence c10w [] c10wblocks (66/128) (16/128)
    rfl (by norm_num [c10w]) (by simp [c10w, c10wblocks, clipIds])

/-- For `target > 0`, the near-target test of the spec,
`|current - target| / target < 0.1`, coincides with the code's test
`0.9 < clamp(current/target, 0.5, 2.0) < 1.1`. -/
theorem near_target_iff (c t : ℚ) (ht : 0 < t) :
    |c - t| / t < 1/10 ↔
      (9/10 < max (1/2) (min 2 (c / t)) ∧ max (1/2) (min 2 (c / t)) < 11/10) := by
  have habs : |c - t| / t < 1/10 ↔ (9/10 * t < c ∧ c < 11/10 * t) := by
    rw [div_lt_iff ht, abs_lt]
    constructor <;> rintro ⟨h1, h2⟩ <;> constructor <;> linarith
  have hdiv : (9/10 < c / t ∧ c / t < 11/10) ↔ (9/10 * t < c ∧ c < 11/10 * t) := by
    rw [lt_div_iff ht, div_lt_iff ht]
  have hclamp : (9/10 < max (1/2) (min 2 (c / t)) ∧ max (1/2) (min 2 (c / t)) < 11/10) ↔
      (9/10 < c / t ∧ c / t < 11/10) := by
    constructor
    · rintro ⟨h1, h2⟩
      rw [lt_max_iff] at h1
      rcases h1 with h1 | h1
      · norm_num at h1
      rw [lt_min_iff] at h1
      rw [max_lt_iff] at h2
      rcases min_lt_iff.1 h2.2 with h3 | h3
      · norm_num at h3
      exact ⟨h1.2, h3⟩
    · rintro ⟨h1, h2⟩
      have hm : min 2 (c / t) = c / t := min_eq_right (by linarith)
      rw [hm]
      exact ⟨lt_max_iff.2 (Or.inr h1), max_lt_iff.2 ⟨by norm_num, h2⟩⟩
  exact habs.trans (hdiv.symm.trans hclamp.symm)

/-- C5: duration matching is a no-op near target: for `target > 0`, the
spec's near-target condition `|current - target| / target < 0.1` is exactly
the code's `0.9 < clamp(current/target, 0.5, 2.0) < 1.1`; and whenever it
holds — or the measured duration is at most `0.1` s, or the duration probe
failed (treated as `0`) — `adjust_duration` returns with the clip file
byte-unchanged. -/
theorem adjust_duration_noop_near_target
    (ffmpeg : ℚ → List Int → Except (List Int) (List Int)) (st : ClipState)
    (c t : ℚ) (ht : 0 < t) :
    (|c - t| / t < 1/10 ↔
      (9/10 < max (1/2) (min 2 (c / t)) ∧ max (1/2) (min 2 (c / t)) < 11/10)) ∧
    ((c ≤ 1/10 ∨ |c - t| / t < 1/10) →
      adjustDuration ffmpeg st (some c) t = (st, true)) ∧
    adjustDuration ffmpeg st none t = (st, true) := by
  refine ⟨near_target_iff c t ht, ?_, ?_⟩
  · intro h
    have hnone : requestedSpeed (some c) t = none := by
      unfold requestedSpeed
      simp only [Option.getD_some]
      by_cases hc : c ≤ 1/10
      · rw [if_pos hc]
      · rcases h with h | h
        · exact absurd h hc
        · rw [if_neg hc, if_pos ((near_target_iff c t ht).1 h)]
    unfold adjustDuration
    rw [hnone]
  · have hnone : requestedSpeed none t = none := by
      unfold requestedSpeed
      norm_num
    unfold adjustDuration
    rw [hnone]

/-- C5 witness: at `current = 1`, `target = 1` the near-target equivalence
holds and the clip is untouched. -/
theorem adjust_duration_noop_near_target_witness :
    (|(1 : ℚ) - 1| / 1 < 1/10 ↔
      (9/10 < max (1/2) (min 2 ((1 : ℚ) / 1)) ∧
        max (1/2) (min 2 ((1 : ℚ) / 1)) < 11/10)) ∧
    (((1 : ℚ) ≤ 1/10 ∨ |(1 : ℚ) - 1| / 1 < 1/10) →
      adjustDuration ffmpegOk clipW (some 1) 1 = (clipW, true)) ∧
    adjustDuration ffmpegOk clipW none 1 = (clipW, true) :=
  adjust_duration_noop_near_target ffmpegOk clipW 1 1 (by norm_num)

/-- C6: for `target > 0`, any tempo factor `adjust_duration` passes to the
tempo engine lies within `[0.5, 2.0]`; and a raw ratio beyond the upper
bound is still accepted best-effort, requesting the clamped factor `2`
rather than being rejected. -/
theorem tempo_factor_clamped (probe : Option ℚ) (t s : ℚ) (ht : 0 < t)
    (h : requestedSpeed probe t = some s) :
    (1/2 ≤ s ∧ s ≤ 2) ∧
    (∀ c : ℚ, 1/10 < c → 2 < c / t → requestedSpeed (some c) t = some 2) := by
  constructor
  · unfold requestedSpeed at h
    by_cases h1 : probe.getD 0 ≤ 1/10
    · rw [if_pos h1] at h
      exact absurd h (by simp)
    · rw [if_neg h1] at h
      by_cases h2 : 9/10 < max (1/2) (min 2 (probe.getD 0 / t)) ∧
          max (1/2) (min 2 (probe.getD 0 / t)) < 11/10
      · rw [if_pos h2] at h
        exact absurd h (by simp)
      · rw [if_neg h2] at h
        have hs : s = max (1/2) (min 2 (probe.getD 0 / t)) :=
          (Option.some_inj.1 h).symm
        rw [hs]
        exact ⟨le_max_left _ _, max_le (by norm_num) (min_le_left _ _)⟩
  · intro c hc1 hc2
    have hm : min 2 (c / t) = 2 := min_eq_left (le_of_lt hc2)
    unfold requestedSpeed
    simp only [Option.getD]
    rw [if_neg (not_le.2 hc1), hm]
    rw [if_neg (by norm_num)]
    norm_num

/-- C6 witness: probing `4` s against a `1` s window requests the clamped
factor `2 ∈ [0.5, 2]`. -/
theorem tempo_factor_clamped_witness :
    ((1:ℚ)/2 ≤ 2 ∧ (2:ℚ) ≤ 2) ∧
    (∀ c : ℚ, 1/10 < c → 2 < c / 1 → requestedSpeed (some c) 1 = some 2) :=
  tempo_factor_clamped (some 4) 1 2 (by norm_num)
    (by norm_num [requestedSpeed, min_def, max_def])

/-- C9: `adjust_duration` replaces the clip atomically — the stretched audio
goes to the temporary path, and `shutil.move` over the original happens only
after the tempo process succeeded — so any execution in which the resample
step fails leaves the clip at `audio_path` byte-unchanged. -/
theorem adjust_duration_atomic
    (ffmpeg : ℚ → List Int → Except (List Int) (List Int)) (st : ClipState)
    (probe : Option ℚ) (t : ℚ)
    (h : (adjustDuration ffmpeg st probe t).2 = false) :
    (adjustDuration ffmpeg st probe t).1.main = st.main := by
  unfold adjustDuration at h ⊢
  cases hr : requestedSpeed probe t with
  | none => simp [hr] at h
  | some s =>
    simp only [hr] at h ⊢
    cases hf : ffmpeg s st.main with
    | error part => simp [hf]
    | ok out => simp [hf] at h

/-- C9 witness: a failing tempo process on a concrete clip leaves its
content `[1, 2, 3]` unchanged. -/
theorem adjust_duration_atomic_witness :
    (adjustDuration ffmpegFail clipW (some 4) 1).1.main = clipW.main :=
  adjust_duration_atomic ffmpegFail clipW (some 4) 1
    (by norm_num [adjustDuration, requestedSpeed, ffmpegFail, min_def, max_def])

/-- C7: when diarization itself raises (engine error or missing
credentials), `TranscriptionManager.run` assigns the default identity
`SPEAKER_00` to every segment and still returns the full segment list —
same segments, same order, same ids — so the run continues. -/
theorem diarization_failure_nonfatal (segs : List Segment) (msg : String) :
    transcriptionRun segs (Except.error msg) =
      segs.map (fun s => { s with speaker := some spk00 }) ∧
    (∀ s ∈ transcriptionRun segs (Except.error msg), s.speaker = some spk00) ∧
    (transcriptionRun segs (Except.error msg)).map Segment.sid =
      segs.map Segment.sid := by
  have h1 : transcriptionRun segs (Except.error msg) =
      segs.map (fun s => { s with speaker := some spk00 }) := by
    cases segs <;> simp [transcriptionRun]
  refine ⟨h1, ?_, ?_⟩
  · intro s hs
    rw [h1] at hs
    obtain ⟨u, _, rfl⟩ := List.mem_map.1 hs
    rfl
  · rw [h1, List.map_map]
    rfl

/-- C8: speaker alignment assigns the reserved default identity
`SPEAKER_00` when the diarization interval set is empty, or when no
interval overlaps `[segment.start, segment.end)`. -/
theorem resolve_default_when_no_overlap (s : Segment) (d : List Track)
    (h : d = [] ∨ ∀ t ∈ d, overlap s t = 0) :
    resolveSpeaker s d = spk00 := by
  have hcrop : cropTracks s d = [] := by
    rcases h with rfl | h
    · rfl
    · unfold cropTracks
      rw [List.filter_eq_nil]
      intro t ht
      have h0 := h t ht
      unfold overlap at h0
      simp only [decide_eq_true_eq, not_lt]
      by_contra hlt
      push_neg at hlt
      have : (0 : ℚ) < max 0 (min s.stop t.tstop - max s.start t.tstart) :=
        lt_of_lt_of_le hlt (le_max_right _ _)
      rw [h0] at this
      exact lt_irrefl 0 this
  unfold resolveSpeaker
  rw [hcrop]
  rfl

theorem synthStep_sid (synth : Segment → Option ℚ) (s : Segment) :
    (synthStep synth s).sid = s.sid := by
  unfold synthStep
  cases ht : s.translated
  · rfl
  · cases hsy : synth s <;> simp [hsy]

theorem synthStep_of_fail (synth : Segment → Option ℚ) (s : Segment)
    (h : synth s = none) : synthStep synth s = s := by
  unfold synthStep
  cases ht : s.translated
  · rfl
  · simp [h]

theorem synthesizeLoop_sid (synth : Segment → Option ℚ) (segs : List Segment) :
    (synthesizeLoop synth segs).map Segment.sid = segs.map Segment.sid := by
  unfold synthesizeLoop
  rw [List.map_map]
  exact List.map_congr_left fun s _ => synthStep_sid synth s

/-- Keys of a filtered list when the altered predicate `q` agrees with `p`
off key `i` and rejects everything at key `i`: the `q`-selection's keys are
the `p`-selection's keys with `i` erased — nothing else removed, order
kept. -/
theorem map_key_filter_erase {α : Type _} (p q : α → Bool) (key : α → Nat)
    (i : Nat) :
    ∀ l : List α, (∀ x ∈ l, key x = i → q x = false) →
      (∀ x ∈ l, key x ≠ i → q x = p x) →
      (l.filter q).map key =
        ((l.filter p).map key).filter (fun n => decide (n ≠ i)) := by
  intro l
  induction l with
  | nil => intro _ _; rfl
  | cons x xs ih =>
    intro h1 h2
    have ih' := ih (fun y hy => h1 y (List.mem_cons_of_mem _ hy))
      (fun y hy => h2 y (List.mem_cons_of_mem _ hy))
    by_cases hk : key x = i
    · have hq : q x = false := h1 x (List.mem_cons_self _ _) hk
      cases hp : p x
      · simp [List.filter_cons, hq, hp, ih']
      · simp [List.filter_cons, hq, hp, hk, ih']
    · have hq : q x = p x := h2 x (List.mem_cons_self _ _) hk
      cases hp : p x
      · simp [List.filter_cons, hq, hp, ih']
      · simp [List.filter_cons, hq, hp, hk, ih']

/-- The mix's clip sequence for a synthesized run: the ids of the segments
whose synthesis succeeded, in list order. -/
theorem loop_clip_ids (synth : Segment → Option ℚ) (segs : List Segment)
    (total : ℚ) :
    clipIds (mixBlocks (synthesizeLoop synth segs) total) =
      (segs.filter fun s => ((synthStep synth s).audio).isSome).map Segment.sid := by
  rw [clipIds_mixBlocks]
  unfold synthesizeLoop
  rw [List.filter_map, List.map_map]
  exact List.map_congr_left fun s _ => synthStep_sid synth s

/-- C4 counterexample: with both segments of `c4segs` synthesized, segment
1's clip sits at offset `1/5` (its 5 ms gap from segment 0 is below
tolerance, so it lands at the probably-truncated cursor); when segment 0's
synthesis fails, segment 1's clip moves to `41/200`: a per-segment failure
does change another segment's placement. -/
theorem synthesis_failure_shifts_placement :
    clipOffset 1 (mixBlocks (synthesizeLoop c4synthOk c4segs) 1) = some (1/5) ∧
    clipOffset 1 (mixBlocks (synthesizeLoop c4synthFail c4segs) 1) = some (41/200) ∧
    (1/5 : ℚ) ≠ 41/200 := by
  refine ⟨?_, ?_, by norm_num⟩ <;>
    norm_num [c4segs, c4synthOk, c4synthFail, synthesizeLoop, synthStep,
      mixBlocks, mixFold, clipOffset, Block.dur]

/-- C4 (amended): a per-segment failure during synthesis or duration
matching (oracle `synth'`, failing exactly on segments with id `i` where the
successful run's oracle is `synth`) leaves that segment's audio handle
absent, and the loop still visits every segment in order (ids of the output
list unchanged), so the run reaches completion; no *other* segment is
removed from the assembled mix and the relative order of the remaining
clips is unchanged — the failing run's clip sequence is exactly the
successful run's with id `i` erased — though, unlike the original claim's
wording, the surviving clips' start offsets can shift (see the
counterexample) when the absent segment's window merges adjacent gaps. -/
theorem synthesis_failure_isolated (synth synth' : Segment → Option ℚ)
    (segs : List Segment) (total : ℚ) (i : Nat)
    (hdiff : ∀ s ∈ segs, s.sid ≠ i → synth' s = synth s)
    (hfail : ∀ s ∈ segs, s.sid = i → synth' s = none)
    (hinit : ∀ s ∈ segs, s.audio = none) :
    (synthesizeLoop synth' segs).map Segment.sid = segs.map Segment.sid ∧
    (∀ s ∈ synthesizeLoop synth' segs, s.sid = i → s.audio = none) ∧
    clipIds (mixBlocks (synthesizeLoop synth' segs) total) =
      (clipIds (mixBlocks (synthesizeLoop synth segs) total)).filter
        (fun n => decide (n ≠ i)) := by
  refine ⟨synthesizeLoop_sid synth' segs, ?_, ?_⟩
  · intro s hs hsid
    obtain ⟨t, ht, rfl⟩ := List.mem_map.1 hs
    rw [synthStep_sid] at hsid
    rw [synthStep_of_fail synth' t (hfail t ht hsid)]
    exact hinit t ht
  · rw [loop_clip_ids, loop_clip_ids]
    apply map_key_filter_erase
    · intro s hs hsid
      show ((synthStep synth' s).audio).isSome = false
      rw [synthStep_of_fail synth' s (hfail s hs hsid), hinit s hs]
      rfl
    · intro s hs hsid
      show ((synthStep synth' s).audio).isSome = ((synthStep synth s).audio).isSome
      rw [show synthStep synth' s = synthStep synth s by
        unfold synthStep
        rw [hdiff s hs hsid]]

/-- C4 witness: failing segment 0 of `c4segs` leaves ids `[0, 1]` intact,
segment 0's handle absent, and the mix's clip sequence equal to the
successful run's with id 0 erased. -/
theorem synthesis_failure_isolated_witness :
    (synthesizeLoop c4synthFail c4segs).map Segment.sid = c4segs.map Segment.sid ∧
    (∀ s ∈ synthesizeLoop c4synthFail c4segs, s.sid = 0 → s.audio = none) ∧
    clipIds (mixBlocks (synthesizeLoop c4synthFail c4segs) 1) =
      (clipIds (mixBlocks (synthesizeLoop c4synthOk c4segs) 1)).filter
        (fun n => decide (n ≠ 0)) :=
  synthesis_failure_isolated c4synthOk c4synthFail c4segs 1 0
    (by
      intro s _ h
      simp [c4synthFail, c4synthOk, h])
    (by
      intro s _ h
      simp [c4synthFail, h])
    (by
      intro s hs
      simp only [c4segs, List.mem_cons, List.mem_singleton] at hs
      rcases hs with rfl | rfl | hs
      · rfl
      · rfl
      · exact absurd hs (List.not_mem_nil s))

/-- C8 witness: an interval abutting the segment at its right edge overlaps
it in measure zero, and alignment yields `SPEAKER_00`. -/
theorem resolve_default_when_no_overlap_witness :
    resolveSpeaker segScenario trackAfter = spk00 :=
  resolve_default_when_no_overlap segScenario trackAfter
    (Or.inr (by
      intro t ht
      simp only [trackAfter, List.mem_singleton] at ht
      subst ht
      norm_num [overlap, segScenario, min_def, max_def]))

theorem firstOccs_aux_nodup (ls : List String) :
    ∀ acc : List String, acc.Nodup →
      (ls.foldl (fun acc x => if x ∈ acc then acc else acc ++ [x]) acc).Nodup := by
  induction ls with
  | nil => intro acc h; exact h
  | cons x xs ih =>
    intro acc h
    simp only [List.foldl_cons]
    by_cases hx : x ∈ acc
    · rw [if_pos hx]
      exact ih acc h
    · rw [if_neg hx]
      refine ih _ (List.Nodup.append h (List.nodup_singleton x) ?_)
      intro a ha hb
      rw [List.mem_singleton] at hb
      subst hb
      exact hx ha

theorem firstOccs_nodup (ls : List String) : (firstOccs ls).Nodup :=
  firstOccs_aux_nodup ls [] List.nodup_nil

theorem firstOccs_aux_ne_nil (ls : List String) :
    ∀ acc : List String, acc ≠ [] →
      ls.foldl (fun acc x => if x ∈ acc then acc else acc ++ [x]) acc ≠ [] := by
  induction ls with
  | nil => intro acc h; exact h
  | cons x xs ih =>
    intro acc h
    simp only [List.foldl_cons]
    by_cases hx : x ∈ acc
    · rw [if_pos hx]
      exact ih acc h
    · rw [if_neg hx]
      exact ih _ (by simp)

theorem firstOccs_ne_nil {ls : List String} (h : ls ≠ []) : firstOccs ls ≠ [] := by
  cases ls with
  | nil => exact absurd rfl h
  | cons x xs =>
    unfold firstOccs
    simp only [List.foldl_cons]
    rw [if_neg (List.not_mem_nil x), List.nil_append]
    exact firstOccs_aux_ne_nil xs [x] (by simp)

/-- Behaviour of CPython's `max(keys, key=f)` scan (the fold of `pickMax`):
the result is a key of the list, no key beats it, and every key listed
before it is strictly below it — the first maximum wins. -/
theorem pick_spec (f : String → ℚ) :
    ∀ (xs : List String) (x : String), (x :: xs).Nodup →
      (xs.foldl (fun best y => if f best < f y then y else best) x ∈ x :: xs) ∧
      (∀ y ∈ x :: xs,
        f y ≤ f (xs.foldl (fun best y => if f best < f y then y else best) x)) ∧
      (∀ p q,
        x :: xs = p ++ (xs.foldl (fun best y => if f best < f y then y else best) x) :: q →
        ∀ l ∈ p, f l < f (xs.foldl (fun best y => if f best < f y then y else best) x)) := by
  intro xs
  induction xs with
  | nil =>
    intro x _
    refine ⟨List.mem_singleton_self x, ?_, ?_⟩
    · intro y hy
      rw [List.mem_singleton] at hy
      subst hy
      exact le_refl _
    · intro p q hpq l hl
      cases p with
      | nil => exact absurd hl (List.not_mem_nil l)
      | cons a p' =>
        injection hpq with h1 h2
        exact absurd h2.symm (List.append_ne_nil_of_right_ne_nil p' (List.cons_ne_nil _ _))
  | cons y ys ih =>
    intro x hnd
    have hxny : x ∉ y :: ys := (List.nodup_cons.1 hnd).1
    have hndyys : (y :: ys).Nodup := (List.nodup_cons.1 hnd).2
    have hyny : y ∉ ys := (List.nodup_cons.1 hndyys).1
    have hndys : ys.Nodup := (List.nodup_cons.1 hndyys).2
    simp only [List.foldl_cons]
    by_cases hxy : f x < f y
    · rw [if_pos hxy]
      obtain ⟨m1, m2, m3⟩ := ih y hndyys
      refine ⟨List.mem_cons_of_mem x m1, ?_, ?_⟩
      · intro z hz
        rcases List.mem_cons.1 hz with rfl | hz'
        · exact le_of_lt (lt_of_lt_of_le hxy (m2 y (List.mem_cons_self _ _)))
        · exact m2 z hz'
      · intro p q hpq l hl
        cases p with
        | nil => exact absurd hl (List.not_mem_nil l)
        | cons a p' =>
          injection hpq with h1 h2
          subst h1
          rcases List.mem_cons.1 hl with rfl | hl'
          · exact lt_of_lt_of_le hxy (m2 y (List.mem_cons_self _ _))
          · exact m3 p' q h2 l hl'
    · rw [if_neg hxy]
      push_neg at hxy
      have hnd' : (x :: ys).Nodup :=
        List.nodup_cons.2 ⟨fun hmem => hxny (List.mem_cons_of_mem _ hmem), hndys⟩
      obtain ⟨m1, m2, m3⟩ := ih x hnd'
      refine ⟨?_, ?_, ?_⟩
      · rcases List.mem_cons.1 m1 with h1 | h1
        · exact List.mem_cons.2 (Or.inl h1)
        · exact List.mem_cons.2 (Or.inr (List.mem_cons.2 (Or.inr h1)))
      · intro z hz
        rcases List.mem_cons.1 hz with rfl | hz'
        · exact m2 z (List.mem_cons_self _ _)
        rcases List.mem_cons.1 hz' with rfl | hz''
        · exact le_trans hxy (m2 x (List.mem_cons_self _ _))
        · exact m2 z (List.mem_cons_of_mem _ hz'')
      · intro p q hpq l hl
        cases p with
        | nil => exact absurd hl (List.not_mem_nil l)
        | cons a p' =>
          injection hpq with h1 h2
          subst h1
          cases p' with
          | nil =>
            exfalso
            injection h2 with h3 h4
            rw [← h3] at m1
            rcases List.mem_cons.1 m1 with h5 | h5
            · exact hxny (h5 ▸ List.mem_cons_self y ys)
            · exact hyny h5
          | cons b p'' =>
            injection h2 with h3 h4
            subst h3
            have hm3 := m3 (x :: p'') q
              (by rw [List.cons_append]; exact congrArg (List.cons x) h4)
            rcases List.mem_cons.1 hl with rfl | hl'
            · exact hm3 l (List.mem_cons_self _ _)
            rcases List.mem_cons.1 hl' with rfl | hl''
            · exact lt_of_le_of_lt hxy (hm3 x (List.mem_cons_self _ _))
            · exact hm3 l (List.mem_cons_of_mem _ hl'')

/-- C3: for every segment and diarization interval set that overlaps it,
`align_speakers` assigns a label of the overlapping region whose accumulated
overlap duration (per-interval `max(0, min(end,t.end) - max(start,t.start))`
summed per label) no other label exceeds, and every label encountered
earlier in interval order than the winner has strictly smaller accumulated
overlap — so a strict maximum always wins, and an exact tie goes to the
first-encountered label (deterministic). -/
theorem resolve_dominant_speaker (s : Segment) (d : List Track)
    (h : cropTracks s d ≠ []) :
    resolveSpeaker s d ∈ firstOccs ((cropTracks s d).map Track.label) ∧
    (∀ lab ∈ firstOccs ((cropTracks s d).map Track.label),
      labelDur s (cropTracks s d) lab ≤
        labelDur s (cropTracks s d) (resolveSpeaker s d)) ∧
    (∀ p q, firstOccs ((cropTracks s d).map Track.label) =
        p ++ resolveSpeaker s d :: q →
      ∀ lab ∈ p, labelDur s (cropTracks s d) lab <
        labelDur s (cropTracks s d) (resolveSpeaker s d)) := by
  have hmap : (cropTracks s d).map Track.label ≠ [] := by
    intro h0
    exact h (List.map_eq_nil.1 h0)
  obtain ⟨x, xs, hL⟩ :=
    List.exists_cons_of_ne_nil (firstOccs_ne_nil hmap)
  have hnd : (x :: xs).Nodup := hL ▸ firstOccs_nodup _
  have hres : resolveSpeaker s d =
      xs.foldl
        (fun best y =>
          if labelDur s (cropTracks s d) best < labelDur s (cropTracks s d) y
          then y else best) x := by
    unfold resolveSpeaker
    rw [hL]
    rfl
  obtain ⟨m1, m2, m3⟩ := pick_spec (labelDur s (cropTracks s d)) xs x hnd
  rw [hL, hres]
  exact ⟨m1, m2, m3⟩

/-- C3 witness: the spec's scenario — intervals `[{0,2,"A"}, {1,3,"B"}]`
against segment `{0,2}` — where "A" (overlap 2) strictly beats "B"
(overlap 1). -/
theorem resolve_dominant_speaker_witness :
    resolveSpeaker segScenario tracksScenario ∈
      firstOccs ((cropTracks segScenario tracksScenario).map Track.label) ∧
    (∀ lab ∈ firstOccs ((cropTracks segScenario tracksScenario).map Track.label),
      labelDur segScenario (cropTracks segScenario tracksScenario) lab ≤
        labelDur segScenario (cropTracks segScenario tracksScenario)
          (resolveSpeaker segScenario tracksScenario)) ∧
    (∀ p q, firstOccs ((cropTracks segScenario tracksScenario).map Track.label) =
        p ++ resolveSpeaker segScenario tracksScenario :: q →
      ∀ lab ∈ p, labelDur segScenario (cropTracks segScenario tracksScenario) lab <
        labelDur segScenario (cropTracks segScenario tracksScenario)
          (resolveSpeaker segScenario tracksScenario)) :=
  resolve_dominant_speaker segScenario tracksScenario
    (by
      intro h0
      norm_num [cropTracks, segScenario, tracksScenario, List.filter,
        min_def, max_def] at h0
      exact List.cons_ne_nil _ _ h0)

end Dubber
